import Mathlib

/-!
Shallow embedding of the daily-ai-digest ingestion and deduplication
pipeline: the text-normalization helpers and entry parsing of
`src/app/services/fetcher.py`, the per-topic deduplication of
`src/app/services/deduplicator.py`, and the trimming step of
`src/app/services/summarizer.py`.

Machine text is modelled as `String` over `List Char`; Python `float`
scores are modelled as exact rationals (`Rat.divInt` of the two set
cardinalities); Python `None` becomes `Option`; fallible constructors
return `Option`.
-/

namespace Digest

/-! ## Character classes (fetcher.py / deduplicator.py helpers) -/

/-- Python whitespace for the regex class and `str.strip`, ASCII subset:
space, tab, newline, carriage return, vertical tab, form feed. -/
def isPySpace (c : Char) : Bool :=
  c = ' ' || c = '\t' || c = '\n' || c = '\x0d' || c = '\x0b' || c = '\x0c'

/-- The characters of Python `string.punctuation`: the 32 printable ASCII
punctuation characters (codes 33-47, 58-64, 91-96, 123-126). -/
def isPyPunct (c : Char) : Bool :=
  (33 ≤ c.toNat && c.toNat ≤ 47) || (58 ≤ c.toNat && c.toNat ≤ 64) ||
  (91 ≤ c.toNat && c.toNat ≤ 96) || (123 ≤ c.toNat && c.toNat ≤ 126)

/-! ## `_strip_html` (fetcher.py lines 40-45) -/

/-- Split a character list at the first occurrence of `c`: the part
strictly before and the part strictly after. -/
def splitAtChar (c : Char) : List Char → Option (List Char × List Char)
  | [] => none
  | x :: xs =>
    if x = c then some ([], xs)
    else
      match splitAtChar c xs with
      | some (a, b) => some (x :: a, b)
      | none => none

theorem splitAtChar_eq (c : Char) :
    ∀ (l a b : List Char), splitAtChar c l = some (a, b) → l = a ++ c :: b := by
  intro l
  induction l with
  | nil => intro a b h; simp [splitAtChar] at h
  | cons x xs ih =>
    intro a b h
    unfold splitAtChar at h
    by_cases hx : x = c
    · rw [if_pos hx] at h
      simp only [Option.some.injEq, Prod.mk.injEq] at h
      obtain ⟨ha, hb⟩ := h
      rw [← ha, ← hb, hx]
      simp
    · rw [if_neg hx] at h
      cases hrec : splitAtChar c xs with
      | none => rw [hrec] at h; exact absurd h (by simp)
      | some p =>
        obtain ⟨a0, b0⟩ := p
        rw [hrec] at h
        simp only [Option.some.injEq, Prod.mk.injEq] at h
        obtain ⟨ha, hb⟩ := h
        rw [← ha, ← hb, List.cons_append, ← ih a0 b0 hrec]

theorem splitAtChar_length (c : Char) (l a b : List Char)
    (h : splitAtChar c l = some (a, b)) : b.length < l.length := by
  have := splitAtChar_eq c l a b h
  subst this
  simp only [List.length_append, List.length_cons]
  omega

/-- The substitution `re.sub(r"<[^>]+>", " ", text)` of `_strip_html`:
each maximal tag, a `<` followed by at least one non-`>` character and a
closing `>`, is replaced by a single space. -/
def stripTags : List Char → List Char
  | [] => []
  | x :: xs =>
    if x = '<' then
      match h : splitAtChar '>' xs with
      | some (inside, after) =>
        if inside.isEmpty then x :: stripTags xs
        else ' ' :: stripTags after
      | none => x :: stripTags xs
    else x :: stripTags xs
termination_by l => l.length
decreasing_by
  · simp
  · have := splitAtChar_length '>' xs inside after h
    simp only [List.length_cons]
    omega
  · simp
  · simp

/-- Named HTML character references for the model of Python
`html.unescape`. The real html5 table has about 2500 names; this
representative subset keeps the decoding structure of `_strip_html`
(longest match after an ampersand; the legacy core names are also
recognized without the trailing semicolon). -/
def entityTable : List (String × String) :=
  [("amp;", "&"), ("lt;", "<"), ("gt;", ">"), ("quot;", "\""),
   ("nbsp;", " "), ("amp", "&"), ("lt", "<"), ("gt", ">"), ("quot", "\"")]

/-- If the first list is a leading segment of the second, return what
remains of the second after it. -/
def stripLeading : List Char → List Char → Option (List Char)
  | [], s => some s
  | _ :: _, [] => none
  | p :: ps, c :: cs => if c = p then stripLeading ps cs else none

theorem stripLeading_length :
    ∀ (p s r : List Char), stripLeading p s = some r → r.length + p.length = s.length := by
  intro p
  induction p with
  | nil => intro s r h; simp [stripLeading] at h; subst h; simp
  | cons x xs ih =>
    intro s r h
    cases s with
    | nil => simp [stripLeading] at h
    | cons c cs =>
      by_cases hc : c = x
      · simp [stripLeading, hc] at h
        have := ih cs r h
        simp
        omega
      · simp [stripLeading, hc] at h

/-- Try each table entry in order; on the first name that is a leading
segment of the text, return the replacement and the remaining text. -/
def lookupEntity : List (String × String) → List Char → Option (List Char × List Char)
  | [], _ => none
  | (name, repl) :: rest, s =>
    match stripLeading name.data s with
    | some after => some (repl.data, after)
    | none => lookupEntity rest s

theorem lookupEntity_length :
    ∀ (table : List (String × String)) (s r after : List Char),
      (∀ p ∈ table, 0 < p.1.data.length) →
      lookupEntity table s = some (r, after) → after.length < s.length := by
  intro table
  induction table with
  | nil => intro s r after _ h; simp [lookupEntity] at h
  | cons e rest ih =>
    intro s r after hpos h
    obtain ⟨name, repl⟩ := e
    simp only [lookupEntity] at h
    cases hstrip : stripLeading name.data s with
    | some a =>
      rw [hstrip] at h
      simp at h
      obtain ⟨_, ha⟩ := h
      subst ha
      have hl := stripLeading_length name.data s a hstrip
      have hn : 0 < name.data.length := hpos (name, repl) (by simp)
      omega
    | none =>
      rw [hstrip] at h
      exact ih s r after (fun p hp => hpos p (by simp [hp])) h

/-- Model of Python `html.unescape` over `entityTable`: text is copied
verbatim except at an ampersand, where the longest matching named
reference is decoded. -/
def unescapeChars : List Char → List Char
  | [] => []
  | c :: cs =>
    if c = '&' then
      match h : lookupEntity entityTable cs with
      | some (repl, after) => repl ++ unescapeChars after
      | none => c :: unescapeChars cs
    else c :: unescapeChars cs
termination_by l => l.length
decreasing_by
  · have := lookupEntity_length entityTable _ _ _ (by decide) h
    try simp only [List.length_cons]
    omega
  · simp
  · simp

theorem length_dropWhile_le (p : Char → Bool) (l : List Char) :
    (l.dropWhile p).length ≤ l.length := by
  induction l with
  | nil => simp [List.dropWhile]
  | cons c cs ih =>
    simp only [List.dropWhile_cons]
    by_cases h : p c
    · simp only [if_pos h, List.length_cons]
      omega
    · simp [if_neg h]

/-- The substitution `re.sub(r"\s+", " ", text)` of `_strip_html`: each
maximal whitespace run becomes one space. -/
def collapseWs : List Char → List Char
  | [] => []
  | c :: cs =>
    if isPySpace c then ' ' :: collapseWs (cs.dropWhile isPySpace)
    else c :: collapseWs cs
termination_by l => l.length
decreasing_by
  · simp only [List.length_cons]
    exact Nat.lt_succ_of_le (length_dropWhile_le _ _)
  · simp

/-- Python `str.strip()`: drop leading and trailing whitespace. -/
def pyStrip (l : List Char) : List Char :=
  ((l.dropWhile isPySpace).reverse.dropWhile isPySpace).reverse

/-- Model of `_strip_html` from fetcher.py: strip tags, decode entities, collapse
whitespace, trim. -/
def _strip_html (s : String) : String :=
  ⟨pyStrip (collapseWs (unescapeChars (stripTags s.data)))⟩

/-- Python `str.strip()` on a string (the bare `.strip()` calls applied
to the title and the link in `_parse_entries`). -/
def pyStripStr (s : String) : String :=
  ⟨pyStrip s.data⟩

/-! ## Dates (`_parse_date`, fetcher.py lines 47-60) -/

/-- Python `datetime.datetime` restricted to the six fields the pipeline
constructs via `datetime(*raw[:6], tzinfo=timezone.utc)`. All constructed
values share the UTC offset, so comparison is lexicographic on the six
fields. -/
structure PyDateTime where
  year : Int
  month : Int
  day : Int
  hour : Int
  minute : Int
  second : Int
deriving DecidableEq, Repr

/-- The six fields in comparison order. -/
def PyDateTime.fields (d : PyDateTime) : List Int :=
  [d.year, d.month, d.day, d.hour, d.minute, d.second]

/-- Lexicographic order on integer lists (Python tuple comparison). -/
def lexLe : List Int → List Int → Bool
  | [], _ => true
  | _ :: _, [] => false
  | x :: xs, y :: ys => if x < y then true else if y < x then false else lexLe xs ys

/-- Gregorian leap year, as Python `calendar`/`datetime` use. -/
def isLeapYear (y : Int) : Bool :=
  y % 4 = 0 && (y % 100 ≠ 0 || y % 400 = 0)

def daysInMonth (y m : Int) : Int :=
  if m = 2 then (if isLeapYear y then 29 else 28)
  else if m = 4 || m = 6 || m = 9 || m = 11 then 30
  else 31

/-- The range checks of the `datetime` constructor: `ValueError` (modelled
as `none`) outside MINYEAR..MAXYEAR and the calendar/clock ranges. -/
def checkedDatetime (y m d hh mm ss : Int) : Option PyDateTime :=
  if 1 ≤ y ∧ y ≤ 9999 ∧ 1 ≤ m ∧ m ≤ 12 ∧ 1 ≤ d ∧ d ≤ daysInMonth y m
     ∧ 0 ≤ hh ∧ hh ≤ 23 ∧ 0 ≤ mm ∧ mm ≤ 59 ∧ 0 ≤ ss ∧ ss ≤ 59
  then some ⟨y, m, d, hh, mm, ss⟩ else none

/-- The call `datetime(*raw, tzinfo=timezone.utc)` applied to an argument list of
length at most six: fewer than three arguments is a `TypeError`, bad
ranges a `ValueError`; both are caught by `_parse_date` and modelled as
`none`. Missing clock fields default to zero. -/
def mkDatetimeUTC : List Int → Option PyDateTime
  | [y, m, d] => checkedDatetime y m d 0 0 0
  | [y, m, d, hh] => checkedDatetime y m d hh 0 0
  | [y, m, d, hh, mm] => checkedDatetime y m d hh mm 0
  | y :: m :: d :: hh :: mm :: ss :: _ => checkedDatetime y m d hh mm ss
  | _ => none

/-- One block of an Atom `content` list: a dict with an optional
`value`. -/
structure ContentBlock where
  value : Option String
deriving DecidableEq, Repr

/-- The fields of a raw feedparser entry that `_parse_entries` and
`_parse_date` read. A `struct_time` is modelled as a list of integers (a
real one has nine entries). -/
structure FeedEntry where
  title : Option String
  link : Option String
  summary : Option String
  content : Option (List ContentBlock)
  published_parsed : Option (List Int)
  updated_parsed : Option (List Int)
deriving DecidableEq, Repr

/-- Python `a or b` on optional struct_time values: `None` and the empty
tuple are falsy. -/
def pyOrStruct (a b : Option (List Int)) : Option (List Int) :=
  match a with
  | some l => if l.isEmpty then b else some l
  | none => b

/-- Model of `_parse_date` from fetcher.py: `published_parsed or updated_parsed`,
then the checked UTC datetime of the first six fields; every failure
(`None`, `TypeError`, `ValueError`) yields `none`. -/
def _parse_date (e : FeedEntry) : Option PyDateTime :=
  match pyOrStruct e.published_parsed e.updated_parsed with
  | none => none
  | some raw => mkDatetimeUTC (raw.take 6)

/-! ## `_parse_entries` (fetcher.py lines 63-101) -/

/-- Article from fetcher.py. -/
structure Article where
  title : String
  url : String
  summary : String
  published : Option PyDateTime
  source : String
  topic : String
deriving DecidableEq, Repr

/-- Python truthiness of an optional string: `None` and `""` are
falsy. -/
def pyTruthyStr : Option String → Option String
  | some s => if s = "" then none else some s
  | none => none

/-- The expression `(entry.get("content") or [ one empty dict ])[0].get("value")`: the
value of the first content block, `none` when the content list is absent
or empty. -/
def contentFirstValue (e : FeedEntry) : Option String :=
  match e.content with
  | some (b :: _) => b.value
  | _ => none

/-- The assignment `raw_summary = entry.get("summary") or content[0].get("value") or ""`
with Python truthiness. -/
def rawSummary (e : FeedEntry) : String :=
  match pyTruthyStr e.summary with
  | some s => s
  | none =>
    match pyTruthyStr (contentFirstValue e) with
    | some s => s
    | none => ""

/-- Model of `_parse_entries` from fetcher.py: normalize each raw entry, skipping
entries whose cleaned title or stripped link is empty. -/
def _parse_entries (entries : List FeedEntry) (sourceName topicId : String) : List Article :=
  match entries with
  | [] => []
  | e :: rest =>
    let title := pyStripStr (_strip_html (e.title.getD ""))
    let url := pyStripStr (e.link.getD "")
    if title = "" || url = "" then _parse_entries rest sourceName topicId
    else
      { title := title, url := url, summary := _strip_html (rawSummary e),
        published := _parse_date e, source := sourceName, topic := topicId }
        :: _parse_entries rest sourceName topicId

/-! ## Orchestrator flatten + URL dedup (fetcher.py lines 186-196) -/

/-- The final pass of `fetch_all_feeds`: flatten the gathered per-feed
lists in task-launch order and keep each Article whose url was not seen
before, regardless of topic. -/
def flattenDedupUrl (results : List (List Article)) : List Article :=
  (results.foldl
    (fun acc feedArticles =>
      feedArticles.foldl
        (fun acc a => if a.url ∈ acc.2 then acc else (acc.1 ++ [a], a.url :: acc.2))
        acc)
    (([] : List Article), ([] : List String))).1

/-! ## deduplicator.py -/

/-- STOPWORDS from deduplicator.py. -/
def STOPWORDS : List String :=
  ["a", "an", "the", "and", "or", "but", "in", "on", "at", "to", "for",
   "of", "with", "is", "are", "was", "were", "be", "been", "has", "have",
   "had", "it", "its", "this", "that", "by", "from", "as", "new", "how",
   "why", "what", "who", "will", "can", "just", "more", "up", "about"]

/-- Accumulate the whitespace-separated words of a character list
(Python `str.split()` with no separator: runs of whitespace separate,
no empty words). -/
def pyWordsAux : List Char → List Char → List String
  | [], acc => if acc.isEmpty then [] else [⟨acc.reverse⟩]
  | c :: cs, acc =>
    if isPySpace c then
      if acc.isEmpty then pyWordsAux cs []
      else (⟨acc.reverse⟩ : String) :: pyWordsAux cs []
    else pyWordsAux cs (c :: acc)

def pyWords (l : List Char) : List String := pyWordsAux l []

/-- Model of `_normalize` from deduplicator.py: lowercase, delete punctuation,
split into words, keep the set of words that are not stopwords and are
longer than one character. -/
def _normalize (title : String) : Finset String :=
  let cleaned := (title.data.map Char.toLower).filter (fun c => !(isPyPunct c))
  (pyWords cleaned).toFinset.filter (fun w => w ∉ STOPWORDS ∧ 1 < w.length)

/-- Model of `_jaccard` from deduplicator.py: intersection size over union size as
an exact rational, and 0 when both sets are empty. -/
def _jaccard (a b : Finset String) : ℚ :=
  if a = ∅ ∧ b = ∅ then 0
  else Rat.divInt ((a ∩ b).card : ℤ) ((a ∪ b).card : ℤ)

/-- SIMILARITY_THRESHOLD = 0.6 from deduplicator.py, as the exact
rational three fifths. -/
def SIMILARITY_THRESHOLD : ℚ := Rat.divInt 3 5

/-- The inner similarity loop of `deduplicate`: an article is a fuzzy
duplicate when some already-kept title set scores at or above the
threshold. -/
def isDuplicate (normalized : Finset String) (keptTitleSets : List (Finset String)) : Bool :=
  keptTitleSets.any (fun s => SIMILARITY_THRESHOLD ≤ _jaccard normalized s)

/-- The per-topic loop of `deduplicate`, carrying the kept articles, the
kept url set and the kept normalized title sets. -/
def dedupTopicAux : List Article → List Article → List String → List (Finset String) → List Article
  | [], kept, _, _ => kept
  | a :: rest, kept, keptUrls, keptTitleSets =>
    if a.url ∈ keptUrls then dedupTopicAux rest kept keptUrls keptTitleSets
    else
      if isDuplicate (_normalize a.title) keptTitleSets then
        dedupTopicAux rest kept keptUrls keptTitleSets
      else
        dedupTopicAux rest (kept ++ [a]) (keptUrls ++ [a.url])
          (keptTitleSets ++ [_normalize a.title])

/-- The body run by `deduplicate` for one topic partition. -/
def dedupTopic (topicArticles : List Article) : List Article :=
  dedupTopicAux topicArticles [] [] []

/-- The statement `by_topic.setdefault(article.topic, []).append(article)` on an
insertion-ordered association list (Python dicts preserve insertion
order). -/
def upsert : List (String × List Article) → String → Article → List (String × List Article)
  | [], t, a => [(t, [a])]
  | (k, v) :: rest, t, a =>
    if k = t then (k, v ++ [a]) :: rest else (k, v) :: upsert rest t a

/-- The grouping pass of `deduplicate`. -/
def groupByTopic (articles : List Article) : List (String × List Article) :=
  articles.foldl (fun m a => upsert m a.topic a) []

/-- Model of `deduplicate` from deduplicator.py: group by topic in first-seen
order, run the per-topic pass, extend the result list per topic. -/
def deduplicate (articles : List Article) : List Article :=
  (groupByTopic articles).foldl (fun result p => result ++ dedupTopic p.2) []

/-! ## summarizer.py `_trim_articles` -/

def MAX_ARTICLES_PER_TOPIC : Nat := 10

/-- The value `datetime.min.replace(tzinfo=timezone.utc)`: year 1, month 1, day 1,
midnight. -/
def datetimeMin : PyDateTime := ⟨1, 1, 1, 0, 0, 0⟩

/-- Model of `sort_key` from `_trim_articles`: the publish date, with `None`
replaced by `datetime.min`. -/
def sortKey (a : Article) : PyDateTime :=
  a.published.getD datetimeMin

/-- The comparison realized by `sorted(key=sort_key, reverse=True)`:
article `a` may precede `b` when the key of `b` is at most the key of
`a`. -/
def descLe (a b : Article) : Bool :=
  lexLe (sortKey b).fields (sortKey a).fields

/-- Stable insertion of one element into a sorted list: the new element
goes before the first existing element it compares `le` to, hence ties
keep the original order when the list is built by `sortStable`. -/
def insertSorted (le : Article → Article → Bool) (a : Article) : List Article → List Article
  | [] => [a]
  | b :: bs => if le a b then a :: b :: bs else b :: insertSorted le a bs

/-- Python `sorted` is a stable sort; for a total transitive comparison a
stable sort is unique, so the stable insertion sort is an exact model. -/
def sortStable (le : Article → Article → Bool) (l : List Article) : List Article :=
  l.foldr (insertSorted le) []

/-- Model of `_trim_articles` from summarizer.py: stable-sort by publish date,
most recent first with undated articles keyed as `datetime.min`, and take
the first MAX_ARTICLES_PER_TOPIC. -/
def _trim_articles (articles : List Article) : List Article :=
  (sortStable descLe articles).take MAX_ARTICLES_PER_TOPIC

/-! ## Spec-side reformulations (for the refinement statements) -/

/-- Spec-side first-seen-wins over urls: keep exactly the Articles whose
url did not occur earlier in the list. -/
def firstSeenByUrl : List Article → List Article
  | [] => []
  | a :: rest => a :: firstSeenByUrl (rest.filter (fun b => b.url ≠ a.url))
termination_by l => l.length
decreasing_by
  simp only [List.length_cons]
  exact Nat.lt_succ_of_le (List.length_filter_le _ _)

/-- Spec-side first-occurrence order of a list of keys. -/
def firstSeen : List String → List String
  | [] => []
  | t :: ts => t :: firstSeen (ts.filter (fun u => u ≠ t))
termination_by l => l.length
decreasing_by
  simp only [List.length_cons]
  exact Nat.lt_succ_of_le (List.length_filter_le _ _)

/-! ## Lemmas: orchestrator URL dedup (C2) -/

/-- Recursive characterization of the inner loop of the flatten pass:
the articles appended given an already-seen url set. -/
def keepNewUrls : List Article → List String → List Article
  | [], _ => []
  | a :: rest, seen =>
    if a.url ∈ seen then keepNewUrls rest seen
    else a :: keepNewUrls rest (a.url :: seen)

/-- The seen-url set after the inner loop. -/
def seenAfter : List Article → List String → List String
  | [], seen => seen
  | a :: rest, seen =>
    if a.url ∈ seen then seenAfter rest seen
    else seenAfter rest (a.url :: seen)

theorem foldl_urlStep_eq :
    ∀ (l : List Article) (acc : List Article) (seen : List String),
      l.foldl (fun acc a => if a.url ∈ acc.2 then acc else (acc.1 ++ [a], a.url :: acc.2))
          (acc, seen)
        = (acc ++ keepNewUrls l seen, seenAfter l seen) := by
  intro l
  induction l with
  | nil => intro acc seen; simp [keepNewUrls, seenAfter]
  | cons a rest ih =>
    intro acc seen
    simp only [List.foldl_cons, keepNewUrls, seenAfter]
    by_cases h : a.url ∈ seen
    · simp only [if_pos h]
      exact ih acc seen
    · simp only [if_neg h]
      rw [ih (acc ++ [a]) (a.url :: seen)]
      simp

theorem firstSeenByUrl_cons (a : Article) (rest : List Article) :
    firstSeenByUrl (a :: rest)
      = a :: firstSeenByUrl (rest.filter (fun b => b.url ≠ a.url)) := by
  simp [firstSeenByUrl]

theorem keepNewUrls_eq_firstSeenByUrl :
    ∀ (l : List Article) (seen : List String),
      keepNewUrls l seen = firstSeenByUrl (l.filter (fun b => b.url ∉ seen)) := by
  intro l
  induction l with
  | nil => intro seen; simp [keepNewUrls, firstSeenByUrl]
  | cons a rest ih =>
    intro seen
    by_cases h : a.url ∈ seen
    · have h1 : keepNewUrls (a :: rest) seen = keepNewUrls rest seen := by
        simp [keepNewUrls, h]
      have h2 : (a :: rest).filter (fun b => b.url ∉ seen)
          = rest.filter (fun b => b.url ∉ seen) := by
        simp [List.filter_cons, h]
      rw [h1, h2, ih]
    · have h1 : keepNewUrls (a :: rest) seen = a :: keepNewUrls rest (a.url :: seen) := by
        simp [keepNewUrls, h]
      have h2 : (a :: rest).filter (fun b => b.url ∉ seen)
          = a :: rest.filter (fun b => b.url ∉ seen) := by
        simp [List.filter_cons, h]
      rw [h1, h2, firstSeenByUrl_cons, ih (a.url :: seen), List.filter_filter]
      congr 2
      apply List.filter_congr
      intro b _
      by_cases hb : b.url = a.url
      · simp [hb]
      · by_cases hs : b.url ∈ seen <;> simp [hb, hs]

theorem flattenDedupUrl_eq :
    ∀ results : List (List Article),
      flattenDedupUrl results = firstSeenByUrl results.flatten := by
  intro results
  unfold flattenDedupUrl
  rw [← List.foldl_flatten
    (fun acc a => if a.url ∈ acc.2 then acc else (acc.1 ++ [a], a.url :: acc.2))
    (([] : List Article), ([] : List String)) results]
  rw [foldl_urlStep_eq results.flatten [] []]
  rw [keepNewUrls_eq_firstSeenByUrl]
  have : (results.flatten.filter (fun b => b.url ∉ ([] : List String)))
      = results.flatten := by
    rw [List.filter_eq_self]
    intro a _
    simp
  rw [this]
  simp

theorem firstSeenByUrl_sublist :
    ∀ l : List Article, List.Sublist (firstSeenByUrl l) l := by
  have H : ∀ (n : Nat) (l : List Article), l.length ≤ n →
      List.Sublist (firstSeenByUrl l) l := by
    intro n
    induction n with
    | zero =>
      intro l hl
      cases l with
      | nil => simp [firstSeenByUrl]
      | cons a rest => simp at hl
    | succ n ih =>
      intro l hl
      cases l with
      | nil => simp [firstSeenByUrl]
      | cons a rest =>
        rw [firstSeenByUrl_cons]
        apply List.Sublist.cons₂
        have hlen : (rest.filter (fun b => b.url ≠ a.url)).length ≤ n := by
          have := List.length_filter_le (fun b => b.url ≠ a.url) rest
          simp only [List.length_cons] at hl
          omega
        exact (ih _ hlen).trans (List.filter_sublist rest)
  intro l
  exact H l.length l le_rfl

theorem firstSeenByUrl_pairwise :
    ∀ l : List Article, (firstSeenByUrl l).Pairwise (fun a b => a.url ≠ b.url) := by
  have H : ∀ (n : Nat) (l : List Article), l.length ≤ n →
      (firstSeenByUrl l).Pairwise (fun a b => a.url ≠ b.url) := by
    intro n
    induction n with
    | zero =>
      intro l hl
      cases l with
      | nil => simp [firstSeenByUrl]
      | cons a rest => simp at hl
    | succ n ih =>
      intro l hl
      cases l with
      | nil => simp [firstSeenByUrl]
      | cons a rest =>
        rw [firstSeenByUrl_cons]
        constructor
        · intro b hb
          have hmem : b ∈ rest.filter (fun x => x.url ≠ a.url) :=
            List.Sublist.mem hb (firstSeenByUrl_sublist _)
          have := List.of_mem_filter hmem
          simp at this
          exact fun hab => this hab.symm
        · have hlen : (rest.filter (fun b => b.url ≠ a.url)).length ≤ n := by
            have := List.length_filter_le (fun b => b.url ≠ a.url) rest
            simp only [List.length_cons] at hl
            omega
          exact ih _ hlen
  intro l
  exact H l.length l le_rfl

/-- C2: the orchestrator flattening-and-deduplication pass keeps an
Article exactly when its url has not appeared earlier in task-launch
order (first occurrence wins, regardless of topic), so all surviving
urls are pairwise distinct and the flat order of the survivors is the
order of their first occurrences. -/
theorem orchestrator_url_dedup_first_seen :
    ∀ results : List (List Article),
      flattenDedupUrl results = firstSeenByUrl results.flatten
      ∧ (flattenDedupUrl results).Pairwise (fun a b => a.url ≠ b.url)
      ∧ List.Sublist (flattenDedupUrl results) results.flatten := by
  intro results
  refine ⟨flattenDedupUrl_eq results, ?_, ?_⟩
  · rw [flattenDedupUrl_eq]
    exact firstSeenByUrl_pairwise _
  · rw [flattenDedupUrl_eq]
    exact firstSeenByUrl_sublist _

/-! ## Lemmas: topic grouping decomposition (C3, C10, C1) -/

theorem firstSeen_cons (t : String) (ts : List String) :
    firstSeen (t :: ts) = t :: firstSeen (ts.filter (fun u => u ≠ t)) := by
  simp [firstSeen]

theorem mem_of_mem_firstSeen :
    ∀ (ts : List String) (t : String), t ∈ firstSeen ts → t ∈ ts := by
  have H : ∀ (n : Nat) (ts : List String), ts.length ≤ n →
      ∀ t, t ∈ firstSeen ts → t ∈ ts := by
    intro n
    induction n with
    | zero =>
      intro ts hl t ht
      cases ts with
      | nil => simp [firstSeen] at ht
      | cons a rest => simp at hl
    | succ n ih =>
      intro ts hl t ht
      cases ts with
      | nil => simp [firstSeen] at ht
      | cons a rest =>
        rw [firstSeen_cons] at ht
        rcases List.mem_cons.mp ht with h | h
        · simp [h]
        · have hlen : (rest.filter (fun u => u ≠ a)).length ≤ n := by
            have := List.length_filter_le (fun u => u ≠ a) rest
            simp only [List.length_cons] at hl
            omega
          have := ih _ hlen t h
          have := List.mem_of_mem_filter this
          simp
          right
          exact List.mem_of_mem_filter (ih _ hlen t h)
  intro ts t ht
  exact H ts.length ts le_rfl t ht

theorem mem_firstSeen_of_mem :
    ∀ (ts : List String) (t : String), t ∈ ts → t ∈ firstSeen ts := by
  have H : ∀ (n : Nat) (ts : List String), ts.length ≤ n →
      ∀ t, t ∈ ts → t ∈ firstSeen ts := by
    intro n
    induction n with
    | zero =>
      intro ts hl t ht
      cases ts with
      | nil => simp at ht
      | cons a rest => simp at hl
    | succ n ih =>
      intro ts hl t ht
      cases ts with
      | nil => simp at ht
      | cons a rest =>
        rw [firstSeen_cons]
        by_cases hta : t = a
        · simp [hta]
        · rcases List.mem_cons.mp ht with h | h
          · exact absurd h hta
          · have hlen : (rest.filter (fun u => u ≠ a)).length ≤ n := by
              have := List.length_filter_le (fun u => u ≠ a) rest
              simp only [List.length_cons] at hl
              omega
            have hmem : t ∈ rest.filter (fun u => u ≠ a) := by
              apply List.mem_filter.mpr
              exact ⟨h, by simp [hta]⟩
            exact List.mem_cons_of_mem a (ih _ hlen t hmem)
  intro ts t ht
  exact H ts.length ts le_rfl t ht

theorem firstSeen_nodup : ∀ ts : List String, (firstSeen ts).Nodup := by
  have H : ∀ (n : Nat) (ts : List String), ts.length ≤ n → (firstSeen ts).Nodup := by
    intro n
    induction n with
    | zero =>
      intro ts hl
      cases ts with
      | nil => simp [firstSeen]
      | cons a rest => simp at hl
    | succ n ih =>
      intro ts hl
      cases ts with
      | nil => simp [firstSeen]
      | cons a rest =>
        rw [firstSeen_cons]
        have hlen : (rest.filter (fun u => u ≠ a)).length ≤ n := by
          have := List.length_filter_le (fun u => u ≠ a) rest
          simp only [List.length_cons] at hl
          omega
        apply List.Nodup.cons
        · intro hmem
          have := List.of_mem_filter (mem_of_mem_firstSeen _ a hmem)
          simp at this
        · exact ih _ hlen
  intro ts
  exact H ts.length ts le_rfl

theorem upsert_keys :
    ∀ (m : List (String × List Article)) (t : String) (a : Article)
      (p : String × List Article), p ∈ upsert m t a → p.1 = t ∨ p.1 ∈ m.map Prod.fst := by
  intro m
  induction m with
  | nil =>
    intro t a p hp
    simp [upsert] at hp
    left
    rw [hp]
  | cons e rest ih =>
    intro t a p hp
    obtain ⟨k, v⟩ := e
    by_cases hk : k = t
    · simp only [upsert, if_pos hk] at hp
      rcases List.mem_cons.mp hp with h | h
      · left; rw [h, hk]
      · right
        rw [List.map_cons]
        exact List.mem_cons_of_mem _ (List.mem_map_of_mem Prod.fst h)
    · simp only [upsert, if_neg hk] at hp
      rcases List.mem_cons.mp hp with h | h
      · right; rw [h]; simp
      · rcases ih t a p h with h1 | h1
        · left; exact h1
        · right; simp at h1 ⊢; tauto

theorem foldl_upsert_extract :
    ∀ (l : List Article) (m : List (String × List Article)) (t : String)
      (v : List Article), (∀ p ∈ m, p.1 ≠ t) →
      List.foldl (fun m a => upsert m a.topic a) ((t, v) :: m) l
        = (t, v ++ l.filter (fun a => a.topic = t))
            :: List.foldl (fun m a => upsert m a.topic a) m
                (l.filter (fun a => a.topic ≠ t)) := by
  intro l
  induction l with
  | nil => intro m t v _; simp
  | cons a rest ih =>
    intro m t v hm
    by_cases ht : a.topic = t
    · have hstep : upsert ((t, v) :: m) a.topic a = (t, v ++ [a]) :: m := by
        simp [upsert, ht]
      have hf1 : (a :: rest).filter (fun x => x.topic = t)
          = a :: rest.filter (fun x => x.topic = t) := by
        simp [List.filter_cons, ht]
      have hf2 : (a :: rest).filter (fun x => x.topic ≠ t)
          = rest.filter (fun x => x.topic ≠ t) := by
        simp [List.filter_cons, ht]
      rw [List.foldl_cons, hstep, ih m t (v ++ [a]) hm, hf1, hf2]
      simp
    · have hstep : upsert ((t, v) :: m) a.topic a = (t, v) :: upsert m a.topic a := by
        have : ¬ (t = a.topic) := fun h => ht h.symm
        simp [upsert, this]
      have hf1 : (a :: rest).filter (fun x => x.topic = t)
          = rest.filter (fun x => x.topic = t) := by
        simp [List.filter_cons, ht]
      have hf2 : (a :: rest).filter (fun x => x.topic ≠ t)
          = a :: rest.filter (fun x => x.topic ≠ t) := by
        simp [List.filter_cons, ht]
      have hm2 : ∀ p ∈ upsert m a.topic a, p.1 ≠ t := by
        intro p hp
        rcases upsert_keys m a.topic a p hp with h | h
        · rw [h]; exact ht
        · rcases List.mem_map.mp h with ⟨q, hq, hq2⟩
          rw [← hq2]
          exact hm q hq
      rw [List.foldl_cons, hstep, ih (upsert m a.topic a) t v hm2, hf1, hf2]
      simp

theorem groupByTopic_cons (a : Article) (l : List Article) :
    groupByTopic (a :: l)
      = (a.topic, a :: l.filter (fun x => x.topic = a.topic))
          :: groupByTopic (l.filter (fun x => x.topic ≠ a.topic)) := by
  unfold groupByTopic
  rw [List.foldl_cons]
  have hstep : upsert [] a.topic a = [(a.topic, [a])] := by simp [upsert]
  rw [hstep]
  have := foldl_upsert_extract l [] a.topic [a] (by simp)
  rw [this]
  simp

theorem groupByTopic_eq :
    ∀ l : List Article,
      groupByTopic l
        = (firstSeen (l.map (fun a => a.topic))).map
            (fun t => (t, l.filter (fun a => a.topic = t))) := by
  have H : ∀ (n : Nat) (l : List Article), l.length ≤ n →
      groupByTopic l
        = (firstSeen (l.map (fun a => a.topic))).map
            (fun t => (t, l.filter (fun a => a.topic = t))) := by
    intro n
    induction n with
    | zero =>
      intro l hl
      cases l with
      | nil => simp [groupByTopic, firstSeen]
      | cons a rest => simp at hl
    | succ n ih =>
      intro l hl
      cases l with
      | nil => simp [groupByTopic, firstSeen]
      | cons a rest =>
        rw [groupByTopic_cons, List.map_cons, firstSeen_cons, List.map_cons]
        have hmapfilter : (rest.map (fun x => x.topic)).filter (fun u => u ≠ a.topic)
            = (rest.filter (fun x => x.topic ≠ a.topic)).map (fun x => x.topic) := by
          rw [List.filter_map]
          rfl
        rw [hmapfilter]
        have hlen : (rest.filter (fun x => x.topic ≠ a.topic)).length ≤ n := by
          have := List.length_filter_le (fun x => x.topic ≠ a.topic) rest
          simp only [List.length_cons] at hl
          omega
        rw [ih _ hlen]
        congr 1
        · have : (a :: rest).filter (fun x => x.topic = a.topic)
              = a :: rest.filter (fun x => x.topic = a.topic) := by
            simp [List.filter_cons]
          rw [this]
        · apply List.map_congr_left
          intro t ht
          have htmem : t ∈ (rest.filter (fun x => x.topic ≠ a.topic)).map
              (fun x => x.topic) := mem_of_mem_firstSeen _ t ht
          rcases List.mem_map.mp htmem with ⟨x, hx, hxt⟩
          have hxne : x.topic ≠ a.topic := by
            have := List.of_mem_filter hx
            simpa using this
          have htne : t ≠ a.topic := by rw [← hxt]; exact hxne
          have h1 : (a :: rest).filter (fun y => y.topic = t)
              = rest.filter (fun y => y.topic = t) := by
            simp only [List.filter_cons]
            have : ¬ (a.topic = t) := fun h => htne h.symm
            simp [this]
          have h2 : (rest.filter (fun y => y.topic ≠ a.topic)).filter
                (fun y => y.topic = t)
              = rest.filter (fun y => y.topic = t) := by
            rw [List.filter_filter]
            apply List.filter_congr
            intro y _
            by_cases hyt : y.topic = t
            · simp [hyt, htne]
            · simp [hyt]
          rw [h1, h2]
  intro l
  exact H l.length l le_rfl

theorem foldl_extend_eq_flatMap :
    ∀ (g : List (String × List Article)) (acc : List Article),
      g.foldl (fun result p => result ++ dedupTopic p.2) acc
        = acc ++ g.flatMap (fun p => dedupTopic p.2) := by
  intro g
  induction g with
  | nil => intro acc; simp
  | cons p rest ih =>
    intro acc
    rw [List.foldl_cons, ih (acc ++ dedupTopic p.2)]
    simp

/-- deduplicate, decomposed: the concatenation over topics in first-seen
order of the per-topic pass applied to that topic's subsequence. -/
theorem deduplicate_decomposition :
    ∀ l : List Article,
      deduplicate l
        = (firstSeen (l.map (fun a => a.topic))).flatMap
            (fun t => dedupTopic (l.filter (fun a => a.topic = t))) := by
  intro l
  unfold deduplicate
  rw [foldl_extend_eq_flatMap, groupByTopic_eq, List.flatMap_map]
  simp

theorem dedupTopicAux_append :
    ∀ (arts kept : List Article) (keptUrls : List String)
      (keptTitleSets : List (Finset String)),
      ∃ s, dedupTopicAux arts kept keptUrls keptTitleSets = kept ++ s
        ∧ List.Sublist s arts := by
  intro arts
  induction arts with
  | nil =>
    intro kept keptUrls keptTitleSets
    exact ⟨[], by simp [dedupTopicAux]⟩
  | cons a rest ih =>
    intro kept keptUrls keptTitleSets
    by_cases h1 : a.url ∈ keptUrls
    · have hstep : dedupTopicAux (a :: rest) kept keptUrls keptTitleSets
          = dedupTopicAux rest kept keptUrls keptTitleSets := by
        simp [dedupTopicAux, h1]
      obtain ⟨s, hs, hsub⟩ := ih kept keptUrls keptTitleSets
      exact ⟨s, by rw [hstep]; exact hs, List.Sublist.cons a hsub⟩
    · by_cases h2 : isDuplicate (_normalize a.title) keptTitleSets
      · have hstep : dedupTopicAux (a :: rest) kept keptUrls keptTitleSets
            = dedupTopicAux rest kept keptUrls keptTitleSets := by
          simp [dedupTopicAux, h1, h2]
        obtain ⟨s, hs, hsub⟩ := ih kept keptUrls keptTitleSets
        exact ⟨s, by rw [hstep]; exact hs, List.Sublist.cons a hsub⟩
      · have hstep : dedupTopicAux (a :: rest) kept keptUrls keptTitleSets
            = dedupTopicAux rest (kept ++ [a]) (keptUrls ++ [a.url])
                (keptTitleSets ++ [_normalize a.title]) := by
          simp [dedupTopicAux, h1, h2]
        obtain ⟨s, hs, hsub⟩ := ih (kept ++ [a]) (keptUrls ++ [a.url])
          (keptTitleSets ++ [_normalize a.title])
        refine ⟨a :: s, ?_, List.Sublist.cons₂ a hsub⟩
        rw [hstep, hs]
        simp

theorem dedupTopic_sublist :
    ∀ arts : List Article, List.Sublist (dedupTopic arts) arts := by
  intro arts
  obtain ⟨s, hs, hsub⟩ := dedupTopicAux_append arts [] [] []
  unfold dedupTopic
  rw [hs]
  simpa using hsub

/-- C3: deduplicate is a function of its input list alone whose output is
the concatenation, over topics in order of first occurrence in the
input, of the per-topic pass on that topic's articles; within each topic
the kept articles form a subsequence of the input (input relative order
preserved). -/
theorem deduplicate_deterministic_order :
    (∀ l : List Article,
      deduplicate l
        = (firstSeen (l.map (fun a => a.topic))).flatMap
            (fun t => dedupTopic (l.filter (fun a => a.topic = t))))
    ∧ (∀ topicArticles : List Article,
        List.Sublist (dedupTopic topicArticles) topicArticles) := by
  exact ⟨deduplicate_decomposition, dedupTopic_sublist⟩

/-! ## Lemmas: fuzzy threshold soundness (C1, C8, C10) -/

theorem jaccard_comm (a b : Finset String) : _jaccard a b = _jaccard b a := by
  unfold _jaccard
  rw [Finset.inter_comm, Finset.union_comm]
  by_cases h1 : a = ∅ <;> by_cases h2 : b = ∅ <;> simp [h1, h2]

theorem isDuplicate_iff (normalized : Finset String) (keptTitleSets : List (Finset String)) :
    isDuplicate normalized keptTitleSets = true
      ↔ ∃ s ∈ keptTitleSets, SIMILARITY_THRESHOLD ≤ _jaccard normalized s := by
  unfold isDuplicate
  simp [List.any_eq_true]

theorem isDuplicate_false_forall {normalized : Finset String}
    {keptTitleSets : List (Finset String)}
    (h : isDuplicate normalized keptTitleSets = false) :
    ∀ s ∈ keptTitleSets, _jaccard normalized s < SIMILARITY_THRESHOLD := by
  intro s hs
  by_contra hc
  have : isDuplicate normalized keptTitleSets = true :=
    (isDuplicate_iff _ _).mpr ⟨s, hs, not_lt.mp hc⟩
  rw [h] at this
  exact absurd this (by simp)

theorem dedupTopicAux_pairwise :
    ∀ (arts kept : List Article) (keptUrls : List String)
      (keptTitleSets : List (Finset String)),
      keptTitleSets = kept.map (fun x => _normalize x.title) →
      kept.Pairwise (fun a b =>
        _jaccard (_normalize a.title) (_normalize b.title) < SIMILARITY_THRESHOLD) →
      (dedupTopicAux arts kept keptUrls keptTitleSets).Pairwise (fun a b =>
        _jaccard (_normalize a.title) (_normalize b.title) < SIMILARITY_THRESHOLD) := by
  intro arts
  induction arts with
  | nil =>
    intro kept keptUrls keptTitleSets hsets hpw
    simpa [dedupTopicAux] using hpw
  | cons a rest ih =>
    intro kept keptUrls keptTitleSets hsets hpw
    by_cases h1 : a.url ∈ keptUrls
    · have hstep : dedupTopicAux (a :: rest) kept keptUrls keptTitleSets
          = dedupTopicAux rest kept keptUrls keptTitleSets := by
        simp [dedupTopicAux, h1]
      rw [hstep]
      exact ih kept keptUrls keptTitleSets hsets hpw
    · by_cases h2 : isDuplicate (_normalize a.title) keptTitleSets
      · have hstep : dedupTopicAux (a :: rest) kept keptUrls keptTitleSets
            = dedupTopicAux rest kept keptUrls keptTitleSets := by
          simp [dedupTopicAux, h1, h2]
        rw [hstep]
        exact ih kept keptUrls keptTitleSets hsets hpw
      · have hstep : dedupTopicAux (a :: rest) kept keptUrls keptTitleSets
            = dedupTopicAux rest (kept ++ [a]) (keptUrls ++ [a.url])
                (keptTitleSets ++ [_normalize a.title]) := by
          simp [dedupTopicAux, h1, h2]
        rw [hstep]
        refine ih (kept ++ [a]) (keptUrls ++ [a.url])
          (keptTitleSets ++ [_normalize a.title]) ?_ ?_
        · rw [hsets, List.map_append]
          rfl
        · rw [List.pairwise_append]
          refine ⟨hpw, by simp, ?_⟩
          intro x hx y hy
          rw [List.mem_singleton] at hy
          rw [hy]
          have hfalse : isDuplicate (_normalize a.title) keptTitleSets = false := by
            simpa using h2
          have hlt := isDuplicate_false_forall hfalse (_normalize x.title)
            (by rw [hsets]; exact List.mem_map_of_mem _ hx)
          rw [jaccard_comm] at hlt
          exact hlt

theorem dedupTopic_pairwise (arts : List Article) :
    (dedupTopic arts).Pairwise (fun a b =>
      _jaccard (_normalize a.title) (_normalize b.title) < SIMILARITY_THRESHOLD) := by
  unfold dedupTopic
  exact dedupTopicAux_pairwise arts [] [] [] (by simp) (by simp)

theorem pairwise_flatMap_topics (ts : List String) (f : String → List Article)
    (hnd : ts.Nodup) (htopic : ∀ t ∈ ts, ∀ x ∈ f t, x.topic = t)
    (hpw : ∀ t ∈ ts, (f t).Pairwise (fun a b =>
      _jaccard (_normalize a.title) (_normalize b.title) < SIMILARITY_THRESHOLD)) :
    (ts.flatMap f).Pairwise (fun a b => a.topic = b.topic →
      _jaccard (_normalize a.title) (_normalize b.title) < SIMILARITY_THRESHOLD) := by
  induction ts with
  | nil => simp
  | cons t rest ih =>
    rw [List.flatMap_cons, List.pairwise_append]
    refine ⟨?_, ?_, ?_⟩
    · apply List.Pairwise.imp _ (hpw t (by simp))
      intro a b h _
      exact h
    · exact ih (List.Nodup.of_cons hnd) (fun u hu => htopic u (by simp [hu]))
        (fun u hu => hpw u (by simp [hu]))
    · intro x hx y hy
      rcases List.mem_flatMap.mp hy with ⟨u, hu, hyu⟩
      have hxt : x.topic = t := htopic t (by simp) x hx
      have hyt : y.topic = u := htopic u (by simp [hu]) y hyu
      intro heq
      exfalso
      have : t = u := by rw [← hxt, ← hyt, heq]
      rw [this] at hnd
      exact (List.nodup_cons.mp hnd).1 hu

/-- C1: inside deduplicate, an Article that survives the url check is
discarded by the fuzzy check exactly when some already-kept Article of
the same topic scores a Jaccard similarity at or above the 0.6
threshold; consequently any two kept Articles of the same topic score
strictly below the threshold. The boundary examples: word sets of sizes
4 and 4 sharing 3 words score exactly 3/5 and are merged, while sets of
size 3 sharing one word score 1/5 and are not. -/
theorem dedup_fuzzy_threshold_sound :
    (∀ (normalized : Finset String) (keptTitleSets : List (Finset String)),
        isDuplicate normalized keptTitleSets = true
          ↔ ∃ s ∈ keptTitleSets, SIMILARITY_THRESHOLD ≤ _jaccard normalized s)
    ∧ (∀ l : List Article,
        (deduplicate l).Pairwise (fun a b => a.topic = b.topic →
          _jaccard (_normalize a.title) (_normalize b.title) < SIMILARITY_THRESHOLD))
    ∧ isDuplicate {"a", "b", "c", "d"} [{"a", "b", "c", "e"}] = true
    ∧ isDuplicate {"a", "b", "c"} [{"a", "d", "e"}] = false := by
  refine ⟨isDuplicate_iff, ?_, by decide, by decide⟩
  intro l
  rw [deduplicate_decomposition]
  apply pairwise_flatMap_topics
  · exact firstSeen_nodup _
  · intro t _ x hx
    have hmem : x ∈ l.filter (fun a => a.topic = t) :=
      List.Sublist.mem hx (dedupTopic_sublist _)
    have := List.of_mem_filter hmem
    simpa using this
  · intro t _
    exact dedupTopic_pairwise _

/-! ## Lemmas: empty normalized titles (C8) -/

theorem jaccard_empty_left (s : Finset String) : _jaccard ∅ s = 0 := by
  unfold _jaccard
  by_cases h : s = ∅
  · simp [h]
  · simp [h, Rat.zero_divInt]

theorem isDuplicate_empty (keptTitleSets : List (Finset String)) :
    isDuplicate (∅ : Finset String) keptTitleSets = false := by
  unfold isDuplicate
  rw [List.any_eq_false]
  intro s _
  rw [jaccard_empty_left]
  simp
  decide

theorem dedupTopic_singleton (a : Article) : dedupTopic [a] = [a] := by
  simp [dedupTopic, dedupTopicAux, isDuplicate]

/-- C8: the Jaccard similarity of two empty word sets is 0, an Article
whose title normalizes to the empty word set is never judged a fuzzy
duplicate, and two same-topic Articles with distinct urls whose titles
both normalize to the empty set both survive deduplicate. -/
theorem dedup_empty_title_not_merged :
    _jaccard ∅ ∅ = 0
    ∧ (∀ keptTitleSets : List (Finset String),
        isDuplicate (∅ : Finset String) keptTitleSets = false)
    ∧ (∀ a b : Article, a.topic = b.topic → a.url ≠ b.url →
        _normalize a.title = ∅ → _normalize b.title = ∅ →
        deduplicate [a, b] = [a, b]) := by
  refine ⟨jaccard_empty_left ∅, isDuplicate_empty, ?_⟩
  intro a b htopic hurl hna hnb
  have hg : groupByTopic [a, b] = [(a.topic, [a, b])] := by
    unfold groupByTopic
    have h1 : upsert [] a.topic a = [(a.topic, [a])] := by simp [upsert]
    have h2 : upsert [(a.topic, [a])] b.topic b = [(a.topic, [a, b])] := by
      simp [upsert, htopic.symm]
    simp only [List.foldl_cons, List.foldl_nil, h1, h2]
  unfold deduplicate
  rw [hg]
  simp only [List.foldl_cons, List.foldl_nil, List.nil_append]
  have hd1 : isDuplicate (_normalize a.title) [] = false := by simp [isDuplicate]
  have hd2 : isDuplicate (_normalize b.title) [_normalize a.title] = false := by
    rw [hnb]
    exact isDuplicate_empty _
  simp [dedupTopic, dedupTopicAux, hd1, hd2, Ne.symm hurl]

/-! ## Lemmas: per-topic url scoping (C10) -/

/-- C10: membership in the output of deduplicate depends only on the
Article's own topic partition, and in particular two Articles sharing a
url but carrying different topics both survive (the kept-url set is
reset per topic). -/
theorem dedup_url_scope_per_topic :
    (∀ (l : List Article) (b : Article), b ∈ l →
        b ∈ dedupTopic (l.filter (fun x => x.topic = b.topic)) →
        b ∈ deduplicate l)
    ∧ (∀ a b : Article, a.url = b.url → a.topic ≠ b.topic →
        deduplicate [a, b] = [a, b]) := by
  constructor
  · intro l b hbl hbd
    rw [deduplicate_decomposition]
    apply List.mem_flatMap.mpr
    refine ⟨b.topic, ?_, hbd⟩
    exact mem_firstSeen_of_mem _ _ (List.mem_map_of_mem (fun a => a.topic) hbl)
  · intro a b hurl htopic
    have hg : groupByTopic [a, b] = [(a.topic, [a]), (b.topic, [b])] := by
      unfold groupByTopic
      have h1 : upsert [] a.topic a = [(a.topic, [a])] := by simp [upsert]
      have h2 : upsert [(a.topic, [a])] b.topic b = [(a.topic, [a]), (b.topic, [b])] := by
        simp [upsert, htopic]
      simp only [List.foldl_cons, List.foldl_nil, h1, h2]
    unfold deduplicate
    rw [hg]
    simp [dedupTopic_singleton]

/-- Witness for C8 at concrete inputs: both titles normalize to the
empty word set, urls differ, both survive. -/
theorem dedup_empty_title_not_merged_witness :
    deduplicate [⟨"", "u1", "", none, "s", "news"⟩, ⟨"", "u2", "", none, "s", "news"⟩]
      = [⟨"", "u1", "", none, "s", "news"⟩, ⟨"", "u2", "", none, "s", "news"⟩] :=
  dedup_empty_title_not_merged.2.2 _ _ rfl (by decide) (by decide) (by decide)

/-- Witness for C10 at concrete inputs: identical url, different topics,
both survive. -/
theorem dedup_url_scope_per_topic_witness :
    deduplicate [⟨"t1", "u", "", none, "s", "ai"⟩, ⟨"t2", "u", "", none, "s", "rust"⟩]
      = [⟨"t1", "u", "", none, "s", "ai"⟩, ⟨"t2", "u", "", none, "s", "rust"⟩] :=
  dedup_url_scope_per_topic.2 _ _ rfl (by decide)

/-! ## C6: publish-timestamp resolution -/

/-- C6: `_parse_date` uses the published timestamp when present (any real
struct_time is a nonempty tuple), else the updated timestamp, else
returns `none`; too few fields or out-of-range fields (the malformed
cases, `TypeError`/`ValueError` in the source) also give `none` instead
of an error. -/
theorem parse_date_resolution :
    (∀ e : FeedEntry, e.published_parsed = none → e.updated_parsed = none →
        _parse_date e = none)
    ∧ (∀ (e : FeedEntry) (raw : List Int), e.published_parsed = some raw → raw ≠ [] →
        _parse_date e = mkDatetimeUTC (raw.take 6))
    ∧ (∀ (e : FeedEntry) (raw : List Int), e.published_parsed = none →
        e.updated_parsed = some raw → _parse_date e = mkDatetimeUTC (raw.take 6))
    ∧ (∀ raw : List Int, raw.length < 3 → mkDatetimeUTC raw = none)
    ∧ (∀ y m d hh mm ss : Int,
        ¬ (1 ≤ y ∧ y ≤ 9999 ∧ 1 ≤ m ∧ m ≤ 12 ∧ 1 ≤ d ∧ d ≤ daysInMonth y m
           ∧ 0 ≤ hh ∧ hh ≤ 23 ∧ 0 ≤ mm ∧ mm ≤ 59 ∧ 0 ≤ ss ∧ ss ≤ 59) →
        checkedDatetime y m d hh mm ss = none) := by
  refine ⟨?_, ?_, ?_, ?_, ?_⟩
  · intro e h1 h2
    unfold _parse_date pyOrStruct
    rw [h1, h2]
  · intro e raw h1 h2
    unfold _parse_date pyOrStruct
    rw [h1]
    cases raw with
    | nil => exact absurd rfl h2
    | cons x xs => simp
  · intro e raw h1 h2
    unfold _parse_date pyOrStruct
    rw [h1, h2]
  · intro raw hlen
    match raw with
    | [] => rfl
    | [x] => rfl
    | [x, y] => rfl
    | x :: y :: z :: t => simp at hlen; omega
  · intro y m d hh mm ss h
    unfold checkedDatetime
    rw [if_neg h]

/-- Witness for C6: each resolution branch evaluated at a concrete
entry, including a malformed short struct_time and an out-of-range
month. -/
theorem parse_date_resolution_witness :
    _parse_date ⟨none, none, none, none, none, none⟩ = none
    ∧ _parse_date ⟨none, none, none, none, some [2024, 5, 3, 10, 0, 0, 0, 0, 0], none⟩
        = mkDatetimeUTC ([2024, 5, 3, 10, 0, 0, 0, 0, 0].take 6)
    ∧ _parse_date ⟨none, none, none, none, none, some [2023, 1, 2, 0, 0, 0, 0, 0, 0]⟩
        = mkDatetimeUTC ([2023, 1, 2, 0, 0, 0, 0, 0, 0].take 6)
    ∧ mkDatetimeUTC [2024] = none
    ∧ checkedDatetime 2024 13 1 0 0 0 = none :=
  ⟨parse_date_resolution.1 _ rfl rfl,
   parse_date_resolution.2.1 _ _ rfl (by decide),
   parse_date_resolution.2.2.1 _ _ rfl rfl,
   parse_date_resolution.2.2.2.1 _ (by decide),
   parse_date_resolution.2.2.2.2 2024 13 1 0 0 0 (by decide)⟩

/-! ## C7: non-empty title and url invariant -/

theorem parse_entries_mem :
    ∀ (entries : List FeedEntry) (src topic : String) (a : Article),
      a ∈ _parse_entries entries src topic →
      ∃ e ∈ entries,
        a = { title := pyStripStr (_strip_html (e.title.getD "")),
              url := pyStripStr (e.link.getD ""),
              summary := _strip_html (rawSummary e),
              published := _parse_date e, source := src, topic := topic }
        ∧ ¬ (pyStripStr (_strip_html (e.title.getD "")) = ""
             ∨ pyStripStr (e.link.getD "") = "") := by
  intro entries src topic
  induction entries with
  | nil =>
    intro a ha
    simp [_parse_entries] at ha
  | cons e rest ih =>
    intro a ha
    rw [_parse_entries] at ha
    by_cases hc : (pyStripStr (_strip_html (e.title.getD "")) = ""
        ∨ pyStripStr (e.link.getD "") = "")
    · rw [if_pos (by simpa using hc)] at ha
      obtain ⟨e2, he2, hrest⟩ := ih a ha
      exact ⟨e2, List.mem_cons_of_mem e he2, hrest⟩
    · rw [if_neg (by simpa using hc)] at ha
      rcases List.mem_cons.mp ha with h | h
      · exact ⟨e, by simp, h, hc⟩
      · obtain ⟨e2, he2, hrest⟩ := ih a h
        exact ⟨e2, List.mem_cons_of_mem e he2, hrest⟩

/-- C7: every Article built by the entry normalizer has a non-empty
title and a non-empty url (entries failing the check are skipped), and
the later stages only select Articles (orchestrator url pass and
deduplicate outputs are drawn from their inputs unchanged). -/
theorem normalizer_nonempty_invariant :
    (∀ (entries : List FeedEntry) (src topic : String) (a : Article),
        a ∈ _parse_entries entries src topic → a.title ≠ "" ∧ a.url ≠ "")
    ∧ (∀ (l : List Article) (a : Article), a ∈ deduplicate l → a ∈ l)
    ∧ (∀ (results : List (List Article)) (a : Article),
        a ∈ flattenDedupUrl results → a ∈ results.flatten) := by
  refine ⟨?_, ?_, ?_⟩
  · intro entries src topic a ha
    obtain ⟨e, _, hae, hne⟩ := parse_entries_mem entries src topic a ha
    rw [not_or] at hne
    rw [hae]
    exact hne
  · intro l a ha
    rw [deduplicate_decomposition] at ha
    rcases List.mem_flatMap.mp ha with ⟨t, _, hat⟩
    have := List.Sublist.mem hat (dedupTopic_sublist _)
    exact List.mem_of_mem_filter this
  · intro results a ha
    rw [flattenDedupUrl_eq] at ha
    exact List.Sublist.mem ha (firstSeenByUrl_sublist _)

/-! ## C5: the url is only trimmed, not html-stripped -/

/-- C5 amended: every produced Article takes its url from the raw link
with only leading and trailing whitespace removed, while the title gets
the full html cleanup. -/
theorem normalizer_url_trim_only :
    ∀ (entries : List FeedEntry) (src topic : String) (a : Article),
      a ∈ _parse_entries entries src topic →
      ∃ e ∈ entries, a.url = pyStripStr (e.link.getD "")
        ∧ a.title = pyStripStr (_strip_html (e.title.getD "")) := by
  intro entries src topic a ha
  obtain ⟨e, he, hae, _⟩ := parse_entries_mem entries src topic a ha
  exact ⟨e, he, by rw [hae], by rw [hae]⟩

/-- C5 counterexample: an entry whose link carries markup produces an
Article whose url keeps the markup verbatim, while the cleanup the claim
describes (the one applied to the title) would have removed it. -/
theorem normalizer_url_not_stripped :
    (_parse_entries [⟨some "T", some "<i>x</i>", none, none, none, none⟩] "s" "ai").map
        (fun a => a.url) = ["<i>x</i>"]
    ∧ _strip_html "<i>x</i>" = "x"
    ∧ (_parse_entries [⟨some "T", some "<i>x</i>", none, none, none, none⟩] "s" "ai").map
        (fun a => a.url) ≠ [_strip_html "<i>x</i>"] := by
  have h1 : (_parse_entries [⟨some "T", some "<i>x</i>", none, none, none, none⟩]
      "s" "ai").map (fun a => a.url) = ["<i>x</i>"] := by
    simp [_parse_entries, _strip_html, stripTags, unescapeChars, collapseWs, pyStrip,
          pyStripStr, lookupEntity, stripLeading, entityTable, isPySpace, splitAtChar,
          rawSummary, pyTruthyStr, contentFirstValue, _parse_date, pyOrStruct, String.data]
  have h2 : _strip_html "<i>x</i>" = "x" := by
    simp [_strip_html, stripTags, unescapeChars, collapseWs, pyStrip, lookupEntity,
          stripLeading, entityTable, isPySpace, splitAtChar, String.data]
  refine ⟨h1, h2, ?_⟩
  rw [h1, h2]
  decide

/-- Witness for the amended C5 at a concrete entry: the link is only
trimmed of surrounding whitespace, the title fully cleaned. -/
theorem normalizer_url_trim_only_witness :
    ∃ e ∈ [(⟨some "My Story", some " u1 ", none, none, none, none⟩ : FeedEntry)],
      (⟨"My Story", "u1", "", none, "s", "ai"⟩ : Article).url = pyStripStr (e.link.getD "")
      ∧ (⟨"My Story", "u1", "", none, "s", "ai"⟩ : Article).title
          = pyStripStr (_strip_html (e.title.getD "")) := by
  have heq : _parse_entries [⟨some "My Story", some " u1 ", none, none, none, none⟩]
      "s" "ai" = [⟨"My Story", "u1", "", none, "s", "ai"⟩] := by
    simp [_parse_entries, _strip_html, stripTags, unescapeChars, collapseWs, pyStrip,
          pyStripStr, lookupEntity, stripLeading, entityTable, isPySpace, splitAtChar,
          rawSummary, pyTruthyStr, contentFirstValue, _parse_date, pyOrStruct, String.data]
  have hmem : (⟨"My Story", "u1", "", none, "s", "ai"⟩ : Article)
      ∈ _parse_entries [⟨some "My Story", some " u1 ", none, none, none, none⟩]
        "s" "ai" := by
    rw [heq]
    simp
  exact normalizer_url_trim_only _ _ _ _ hmem

/-- Witness for C7 at a concrete entry: the produced Article has
non-empty title and url. -/
theorem normalizer_nonempty_invariant_witness :
    (⟨"T", "u", "", none, "s", "ai"⟩ : Article).title ≠ ""
    ∧ (⟨"T", "u", "", none, "s", "ai"⟩ : Article).url ≠ "" := by
  have heq : _parse_entries [⟨some "T", some "u", none, none, none, none⟩]
      "s" "ai" = [⟨"T", "u", "", none, "s", "ai"⟩] := by
    simp [_parse_entries, _strip_html, stripTags, unescapeChars, collapseWs, pyStrip,
          pyStripStr, lookupEntity, stripLeading, entityTable, isPySpace, splitAtChar,
          rawSummary, pyTruthyStr, contentFirstValue, _parse_date, pyOrStruct, String.data]
  have hmem : (⟨"T", "u", "", none, "s", "ai"⟩ : Article)
      ∈ _parse_entries [⟨some "T", some "u", none, none, none, none⟩] "s" "ai" := by
    rw [heq]
    simp
  exact normalizer_nonempty_invariant.1 _ _ _ _ hmem

/-! ## Lemmas: trimming and the stable descending sort (C9) -/

theorem lexLe_total : ∀ xs ys : List Int, lexLe xs ys = true ∨ lexLe ys xs = true := by
  intro xs
  induction xs with
  | nil => intro ys; left; simp [lexLe]
  | cons x xs ih =>
    intro ys
    cases ys with
    | nil => right; simp [lexLe]
    | cons y ys =>
      simp only [lexLe]
      by_cases h1 : x < y
      · left; simp [h1]
      · by_cases h2 : y < x
        · right; simp [h2]
        · rcases ih ys with h | h
          · left; simp [h1, h2, h]
          · right; simp [h1, h2, h]

theorem lexLe_trans : ∀ xs ys zs : List Int,
    lexLe xs ys = true → lexLe ys zs = true → lexLe xs zs = true := by
  intro xs
  induction xs with
  | nil => intro ys zs _ _; simp [lexLe]
  | cons x xs ih =>
    intro ys zs h1 h2
    cases ys with
    | nil => simp [lexLe] at h1
    | cons y ys =>
      cases zs with
      | nil => simp [lexLe] at h2
      | cons z zs =>
        simp only [lexLe] at h1 h2 ⊢
        by_cases hxy : x < y
        · by_cases hyz : y < z
          · simp [lt_trans hxy hyz]
          · by_cases hzy : z < y
            · rw [if_neg hyz, if_pos hzy] at h2
              exact absurd h2 (by simp)
            · have hyzeq : y = z := le_antisymm (not_lt.mp hzy) (not_lt.mp hyz)
              have : x < z := hyzeq ▸ hxy
              simp [this]
        · by_cases hyx : y < x
          · rw [if_neg hxy, if_pos hyx] at h1
            exact absurd h1 (by simp)
          · have hxyeq : x = y := le_antisymm (not_lt.mp hyx) (not_lt.mp hxy)
            rw [if_neg hxy, if_neg hyx] at h1
            by_cases hyz : y < z
            · have : x < z := hxyeq ▸ hyz
              simp [this]
            · by_cases hzy : z < y
              · rw [if_neg hyz, if_pos hzy] at h2
                exact absurd h2 (by simp)
              · rw [if_neg hyz, if_neg hzy] at h2
                have hxz1 : ¬ x < z := by rw [hxyeq]; exact hyz
                have hxz2 : ¬ z < x := by rw [hxyeq]; exact hzy
                rw [if_neg hxz1, if_neg hxz2]
                exact ih ys zs h1 h2

theorem descLe_total : ∀ a b : Article, descLe a b = true ∨ descLe b a = true := by
  intro a b
  unfold descLe
  rcases lexLe_total (sortKey b).fields (sortKey a).fields with h | h
  · left; exact h
  · right; exact h

theorem descLe_trans : ∀ a b c : Article,
    descLe a b = true → descLe b c = true → descLe a c = true := by
  intro a b c h1 h2
  unfold descLe at h1 h2 ⊢
  exact lexLe_trans _ _ _ h2 h1

theorem insertSorted_perm (le : Article → Article → Bool) (a : Article) :
    ∀ l : List Article, (insertSorted le a l).Perm (a :: l) := by
  intro l
  induction l with
  | nil => simp [insertSorted]
  | cons b bs ih =>
    unfold insertSorted
    by_cases h : le a b
    · rw [if_pos h]
    · rw [if_neg h]
      exact List.Perm.trans (List.Perm.cons b ih) (List.Perm.swap a b bs)

theorem sortStable_perm (le : Article → Article → Bool) :
    ∀ l : List Article, (sortStable le l).Perm l := by
  intro l
  induction l with
  | nil => simp [sortStable]
  | cons a as ih =>
    have : sortStable le (a :: as) = insertSorted le a (sortStable le as) := rfl
    rw [this]
    exact (insertSorted_perm le a _).trans (List.Perm.cons a ih)

theorem insertSorted_pairwise (le : Article → Article → Bool)
    (htrans : ∀ a b c, le a b = true → le b c = true → le a c = true)
    (htotal : ∀ a b, le a b = true ∨ le b a = true) (a : Article) :
    ∀ l : List Article, l.Pairwise (fun x y => le x y = true) →
      (insertSorted le a l).Pairwise (fun x y => le x y = true) := by
  intro l
  induction l with
  | nil => intro _; simp [insertSorted]
  | cons b bs ih =>
    intro hpw
    rcases List.pairwise_cons.mp hpw with ⟨hb, hbs⟩
    unfold insertSorted
    by_cases h : le a b
    · rw [if_pos h]
      apply List.Pairwise.cons _ hpw
      intro y hy
      rcases List.mem_cons.mp hy with hyb | hybs
      · rw [hyb]; exact h
      · exact htrans a b y h (hb y hybs)
    · rw [if_neg h]
      apply List.Pairwise.cons _ (ih hbs)
      intro y hy
      have hmem : y ∈ a :: bs := (insertSorted_perm le a bs).mem_iff.mp hy
      rcases List.mem_cons.mp hmem with hya | hybs
      · rw [hya]
        rcases htotal a b with h1 | h1
        · exact absurd h1 h
        · exact h1
      · exact hb y hybs

theorem sortStable_pairwise (le : Article → Article → Bool)
    (htrans : ∀ a b c, le a b = true → le b c = true → le a c = true)
    (htotal : ∀ a b, le a b = true ∨ le b a = true) :
    ∀ l : List Article, (sortStable le l).Pairwise (fun x y => le x y = true) := by
  intro l
  induction l with
  | nil => simp [sortStable]
  | cons a as ih =>
    have : sortStable le (a :: as) = insertSorted le a (sortStable le as) := rfl
    rw [this]
    exact insertSorted_pairwise le htrans htotal a _ ih

/-- C9 amended: the trim returns the first ten of the stable descending
sort by publish key; dropped articles never have a larger key than kept
ones, and after an undated article only articles whose key is at most
`datetime.min` can follow. -/
theorem trim_articles_spec :
    ∀ l : List Article,
      (_trim_articles l).length ≤ MAX_ARTICLES_PER_TOPIC
      ∧ (sortStable descLe l).Perm l
      ∧ List.Sublist (_trim_articles l) (sortStable descLe l)
      ∧ (_trim_articles l).Pairwise (fun a b => descLe a b = true)
      ∧ (∀ b ∈ (sortStable descLe l).drop MAX_ARTICLES_PER_TOPIC,
          ∀ a ∈ _trim_articles l,
            lexLe (sortKey b).fields (sortKey a).fields = true)
      ∧ (_trim_articles l).Pairwise (fun a b => a.published = none →
          lexLe (sortKey b).fields datetimeMin.fields = true) := by
  intro l
  have hsorted : (sortStable descLe l).Pairwise (fun x y => descLe x y = true) :=
    sortStable_pairwise descLe descLe_trans descLe_total l
  have htakepw : (_trim_articles l).Pairwise (fun a b => descLe a b = true) :=
    List.Pairwise.sublist (List.take_sublist _ _) hsorted
  refine ⟨List.length_take_le _ _, sortStable_perm descLe l,
    List.take_sublist _ _, htakepw, ?_, ?_⟩
  · intro b hb a ha
    have hsplit := List.take_append_drop MAX_ARTICLES_PER_TOPIC (sortStable descLe l)
    rw [← hsplit] at hsorted
    have hcross := (List.pairwise_append.mp hsorted).2.2
    have := hcross a ha b hb
    unfold descLe at this
    exact this
  · apply List.Pairwise.imp _ htakepw
    intro a b h hpub
    unfold descLe at h
    have : sortKey a = datetimeMin := by simp [sortKey, hpub]
    rw [this] at h
    exact h

/-- C9 counterexample: an undated article and an article dated exactly
`datetime.min` tie under the sort key, and the stable sort keeps the
undated one first, so the dated article is ordered after an undated
one. -/
theorem trim_articles_none_not_last :
    _trim_articles [⟨"t1", "u1", "", none, "s", "ai"⟩,
        ⟨"t2", "u2", "", some ⟨1, 1, 1, 0, 0, 0⟩, "s", "ai"⟩]
      = [⟨"t1", "u1", "", none, "s", "ai"⟩,
         ⟨"t2", "u2", "", some ⟨1, 1, 1, 0, 0, 0⟩, "s", "ai"⟩]
    ∧ (⟨"t1", "u1", "", none, "s", "ai"⟩ : Article).published = none
    ∧ (⟨"t2", "u2", "", some ⟨1, 1, 1, 0, 0, 0⟩, "s", "ai"⟩ : Article).published
        ≠ none := by
  refine ⟨by decide, rfl, by decide⟩

/-! ## Lemmas: normalization idempotence analysis (C4) -/

theorem stripTags_eq_self : ∀ l : List Char, '<' ∉ l → stripTags l = l := by
  intro l
  induction l with
  | nil => simp [stripTags]
  | cons x xs ih =>
    intro h
    have hx : ¬ (x = '<') := by
      intro hx
      exact h (by simp [hx])
    have hxs : '<' ∉ xs := fun hm => h (List.mem_cons_of_mem x hm)
    rw [stripTags]
    rw [if_neg hx, ih hxs]

theorem unescapeChars_eq_self : ∀ l : List Char, '&' ∉ l → unescapeChars l = l := by
  intro l
  induction l with
  | nil => simp [unescapeChars]
  | cons x xs ih =>
    intro h
    have hx : ¬ (x = '&') := by
      intro hx
      exact h (by simp [hx])
    have hxs : '&' ∉ xs := fun hm => h (List.mem_cons_of_mem x hm)
    rw [unescapeChars]
    rw [if_neg hx, ih hxs]

theorem head_dropWhile_false (p : Char → Bool) :
    ∀ (l : List Char) (d : Char) (ds : List Char),
      l.dropWhile p = d :: ds → p d = false := by
  intro l
  induction l with
  | nil => intro d ds h; simp [List.dropWhile] at h
  | cons c cs ih =>
    intro d ds h
    rw [List.dropWhile_cons] at h
    by_cases hc : p c
    · rw [if_pos hc] at h
      exact ih d ds h
    · rw [if_neg hc] at h
      injection h with h1 _
      rw [← h1]
      simpa using hc

theorem dropWhile_idem (p : Char → Bool) (l : List Char) :
    (l.dropWhile p).dropWhile p = l.dropWhile p := by
  cases h : l.dropWhile p with
  | nil => rfl
  | cons d ds =>
    rw [List.dropWhile_cons, if_neg]
    simp [head_dropWhile_false p l d ds h]

/-- Every whitespace character emitted by collapseWs is a plain space. -/
theorem collapseWs_space_is_blank :
    ∀ l : List Char, ∀ c ∈ collapseWs l, isPySpace c = true → c = ' ' := by
  have H : ∀ (n : Nat) (l : List Char), l.length ≤ n →
      ∀ c ∈ collapseWs l, isPySpace c = true → c = ' ' := by
    intro n
    induction n with
    | zero =>
      intro l hl c hc _
      cases l with
      | nil => simp [collapseWs] at hc
      | cons x xs => simp at hl
    | succ n ih =>
      intro l hl c hc hsp
      cases l with
      | nil => simp [collapseWs] at hc
      | cons x xs =>
        by_cases hx : isPySpace x
        · rw [collapseWs, if_pos hx] at hc
          rcases List.mem_cons.mp hc with h | h
          · exact h
          · have hlen : (xs.dropWhile isPySpace).length ≤ n := by
              have := length_dropWhile_le isPySpace xs
              simp only [List.length_cons] at hl
              omega
            exact ih _ hlen c h hsp
        · rw [collapseWs, if_neg hx] at hc
          rcases List.mem_cons.mp hc with h | h
          · rw [h] at hsp
            exact absurd hsp (by simpa using hx)
          · have hlen : xs.length ≤ n := by
              simp only [List.length_cons] at hl
              omega
            exact ih _ hlen c h hsp
  intro l
  exact H l.length l le_rfl

theorem collapseWs_cons_not_space (c : Char) (cs : List Char) (h : ¬ isPySpace c) :
    collapseWs (c :: cs) = c :: collapseWs cs := by
  rw [collapseWs, if_neg h]

/-- No two adjacent whitespace characters in the output of collapseWs. -/
theorem collapseWs_chain :
    ∀ l : List Char, (collapseWs l).Chain'
      (fun a b => ¬ (isPySpace a = true ∧ isPySpace b = true)) := by
  have H : ∀ (n : Nat) (l : List Char), l.length ≤ n →
      (collapseWs l).Chain'
        (fun a b => ¬ (isPySpace a = true ∧ isPySpace b = true)) := by
    intro n
    induction n with
    | zero =>
      intro l hl
      cases l with
      | nil => simp [collapseWs]
      | cons x xs => simp at hl
    | succ n ih =>
      intro l hl
      cases l with
      | nil => simp [collapseWs]
      | cons x xs =>
        by_cases hx : isPySpace x
        · rw [collapseWs, if_pos hx]
          have hlen : (xs.dropWhile isPySpace).length ≤ n := by
            have := length_dropWhile_le isPySpace xs
            simp only [List.length_cons] at hl
            omega
          cases hdw : xs.dropWhile isPySpace with
          | nil => simp [collapseWs]
          | cons d ds =>
            rw [hdw] at hlen
            have hd : isPySpace d = false := head_dropWhile_false isPySpace xs d ds hdw
            have hch := ih _ hlen
            rw [collapseWs_cons_not_space d ds (by simp [hd])] at hch ⊢
            refine List.Chain'.cons ?_ hch
            simp [hd]
        · rw [collapseWs, if_neg hx]
          have hlen : xs.length ≤ n := by
            simp only [List.length_cons] at hl
            omega
          have hch := ih _ hlen
          cases hcx : collapseWs xs with
          | nil => simp
          | cons d ds =>
            rw [hcx] at hch
            refine List.Chain'.cons ?_ hch
            intro hcontra
            have hxs : isPySpace x = true := hcontra.1
            exact hx hxs
  intro l
  exact H l.length l le_rfl

/-- A list whose whitespace is single plain spaces is a fixed point of
collapseWs. -/
theorem collapseWs_of_collapsed :
    ∀ l : List Char, (∀ c ∈ l, isPySpace c = true → c = ' ') →
      l.Chain' (fun a b => ¬ (isPySpace a = true ∧ isPySpace b = true)) →
      collapseWs l = l := by
  intro l
  induction l with
  | nil => intro _ _; simp [collapseWs]
  | cons x xs ih =>
    intro hmem hch
    by_cases hx : isPySpace x
    · rw [collapseWs, if_pos hx]
      have hxblank : x = ' ' := hmem x (by simp) hx
      have hdrop : xs.dropWhile isPySpace = xs := by
        cases xs with
        | nil => rfl
        | cons d ds =>
          have hrel := List.chain'_cons.mp hch
          have hd : ¬ isPySpace d = true := by
            intro hd
            exact hrel.1 ⟨hx, hd⟩
          rw [List.dropWhile_cons, if_neg hd]
      rw [hdrop, ih (fun c hc => hmem c (List.mem_cons_of_mem x hc))
        (List.Chain'.tail hch), hxblank]
    · rw [collapseWs, if_neg hx]
      rw [ih (fun c hc => hmem c (List.mem_cons_of_mem x hc)) (List.Chain'.tail hch)]

theorem mem_pyStrip (l : List Char) (c : Char) (h : c ∈ pyStrip l) : c ∈ l := by
  unfold pyStrip at h
  have h1 := List.mem_reverse.mp h
  have h2 := (List.dropWhile_suffix isPySpace).subset h1
  have h3 := List.mem_reverse.mp h2
  exact (List.dropWhile_suffix isPySpace).subset h3

theorem chain'_dropWhile {R : Char → Char → Prop} (p : Char → Bool) :
    ∀ l : List Char, l.Chain' R → (l.dropWhile p).Chain' R := by
  intro l
  induction l with
  | nil => intro h; simpa [List.dropWhile] using h
  | cons c cs ih =>
    intro h
    rw [List.dropWhile_cons]
    by_cases hc : p c
    · rw [if_pos hc]
      exact ih (List.Chain'.tail h)
    · rw [if_neg hc]
      exact h

theorem chain'_reverse_of_sym :
    ∀ l : List Char,
      l.Chain' (fun a b => ¬ (isPySpace a = true ∧ isPySpace b = true)) →
      l.reverse.Chain' (fun a b => ¬ (isPySpace a = true ∧ isPySpace b = true)) := by
  intro l h
  rw [List.chain'_reverse]
  apply List.Chain'.imp _ h
  intro a b hab
  intro hcon
  exact hab ⟨hcon.2, hcon.1⟩

theorem chain'_pyStrip (l : List Char)
    (h : l.Chain' (fun a b => ¬ (isPySpace a = true ∧ isPySpace b = true))) :
    (pyStrip l).Chain' (fun a b => ¬ (isPySpace a = true ∧ isPySpace b = true)) := by
  unfold pyStrip
  exact chain'_reverse_of_sym _ (chain'_dropWhile isPySpace _
    (chain'_reverse_of_sym _ (chain'_dropWhile isPySpace _ h)))

theorem getLast?_dropWhile (p : Char → Bool) (l : List Char)
    (h : l.dropWhile p ≠ []) : (l.dropWhile p).getLast? = l.getLast? := by
  conv_rhs => rw [← List.takeWhile_append_dropWhile p l]
  rw [List.getLast?_append]
  cases hd : (l.dropWhile p).getLast? with
  | none =>
    exact absurd (List.getLast?_eq_none_iff.mp hd) h
  | some c => simp

theorem dropWhile_eq_self_of_head (p : Char → Bool) :
    ∀ (w : List Char) (a : Char), w.head? = some a → p a = false →
      w.dropWhile p = w := by
  intro w a h hp
  cases w with
  | nil => rfl
  | cons b bs =>
    simp at h
    rw [List.dropWhile_cons, if_neg (by rw [h]; simp [hp])]

theorem pyStrip_idem (l : List Char) : pyStrip (pyStrip l) = pyStrip l := by
  have key : ∀ m : List Char,
      (pyStrip m).dropWhile isPySpace = pyStrip m := by
    intro m
    unfold pyStrip
    cases hv : (m.dropWhile isPySpace).reverse.dropWhile isPySpace with
    | nil => simp
    | cons c cs =>
      have hune : m.dropWhile isPySpace ≠ [] := by
        intro h
        rw [h] at hv
        simp [List.dropWhile] at hv
      cases hu : m.dropWhile isPySpace with
      | nil => exact absurd hu hune
      | cons a as =>
        have hpa : isPySpace a = false := head_dropWhile_false isPySpace m a as hu
        have h5 : (c :: cs).getLast? = (m.dropWhile isPySpace).reverse.getLast? := by
          rw [← hv]
          exact getLast?_dropWhile isPySpace _ (by rw [hv]; simp)
        have h6 : (m.dropWhile isPySpace).reverse.getLast? = some a := by
          rw [List.getLast?_reverse, hu]
          rfl
        apply dropWhile_eq_self_of_head isPySpace _ a _ hpa
        rw [List.head?_reverse, h5, h6]
  have hrrev : (pyStrip l).reverse = (l.dropWhile isPySpace).reverse.dropWhile isPySpace := by
    unfold pyStrip
    rw [List.reverse_reverse]
  have hout : pyStrip (pyStrip l)
      = (((pyStrip l).dropWhile isPySpace).reverse.dropWhile isPySpace).reverse := rfl
  rw [hout, key l, hrrev, dropWhile_idem]
  rfl

/-- C4 amended: `_strip_html` is idempotent on every string whose first
normalization contains neither `<` nor `&` (entity decoding can create
those characters, and a second pass then reprocesses them, as the
counterexample shows). -/
theorem strip_html_idempotent_on_clean :
    ∀ s : String, '<' ∉ (_strip_html s).data → '&' ∉ (_strip_html s).data →
      _strip_html (_strip_html s) = _strip_html s := by
  intro s h1 h2
  have hdata : (_strip_html s).data
      = pyStrip (collapseWs (unescapeChars (stripTags s.data))) := rfl
  have hst : stripTags (_strip_html s).data = (_strip_html s).data :=
    stripTags_eq_self _ h1
  have hun : unescapeChars (_strip_html s).data = (_strip_html s).data :=
    unescapeChars_eq_self _ h2
  have hcmem : ∀ c ∈ (_strip_html s).data, isPySpace c = true → c = ' ' := by
    intro c hc hsp
    rw [hdata] at hc
    exact collapseWs_space_is_blank _ c (mem_pyStrip _ c hc) hsp
  have hcch : ((_strip_html s).data).Chain'
      (fun a b => ¬ (isPySpace a = true ∧ isPySpace b = true)) := by
    rw [hdata]
    exact chain'_pyStrip _ (collapseWs_chain _)
  have hcw : collapseWs (_strip_html s).data = (_strip_html s).data :=
    collapseWs_of_collapsed _ hcmem hcch
  have hps : pyStrip (_strip_html s).data = (_strip_html s).data := by
    rw [hdata]
    exact pyStrip_idem _
  show (⟨pyStrip (collapseWs (unescapeChars (stripTags (_strip_html s).data)))⟩ : String)
      = _strip_html s
  rw [hst, hun, hcw, hps]

/-- C4 counterexample: entity decoding creates a tag, so a second pass
removes text the first pass produced; normalization is not idempotent. -/
theorem strip_html_not_idempotent :
    _strip_html (_strip_html "&lt;b&gt;") ≠ _strip_html "&lt;b&gt;" := by
  have h1 : _strip_html "&lt;b&gt;" = "<b>" := by
    simp [_strip_html, stripTags, unescapeChars, collapseWs, pyStrip, lookupEntity,
          stripLeading, entityTable, isPySpace, splitAtChar, String.data]
  have h2 : _strip_html "<b>" = "" := by
    simp [_strip_html, stripTags, unescapeChars, collapseWs, pyStrip, lookupEntity,
          stripLeading, entityTable, isPySpace, splitAtChar, String.data]
  rw [h1, h2]
  decide

/-- Witness for the amended C4 at a concrete clean string. -/
theorem strip_html_idempotent_on_clean_witness :
    _strip_html (_strip_html "a b") = _strip_html "a b" := by
  have heq : _strip_html "a b" = "a b" := by
    simp [_strip_html, stripTags, unescapeChars, collapseWs, pyStrip, lookupEntity,
          stripLeading, entityTable, isPySpace, splitAtChar, String.data]
  apply strip_html_idempotent_on_clean
  · rw [heq]
    decide
  · rw [heq]
    decide

/-- Witness for the amended C9: with eleven dated articles the oldest is
dropped, and its key is at most the key of the newest kept article. -/
theorem trim_articles_spec_witness :
    lexLe (sortKey (⟨"", "", "", some ⟨2000, 1, 1, 0, 0, 0⟩, "", ""⟩ : Article)).fields
        (sortKey (⟨"", "", "", some ⟨2010, 1, 1, 0, 0, 0⟩, "", ""⟩ : Article)).fields
      = true :=
  (trim_articles_spec
    [⟨"", "", "", some ⟨2010, 1, 1, 0, 0, 0⟩, "", ""⟩,
     ⟨"", "", "", some ⟨2009, 1, 1, 0, 0, 0⟩, "", ""⟩,
     ⟨"", "", "", some ⟨2008, 1, 1, 0, 0, 0⟩, "", ""⟩,
     ⟨"", "", "", some ⟨2007, 1, 1, 0, 0, 0⟩, "", ""⟩,
     ⟨"", "", "", some ⟨2006, 1, 1, 0, 0, 0⟩, "", ""⟩,
     ⟨"", "", "", some ⟨2005, 1, 1, 0, 0, 0⟩, "", ""⟩,
     ⟨"", "", "", some ⟨2004, 1, 1, 0, 0, 0⟩, "", ""⟩,
     ⟨"", "", "", some ⟨2003, 1, 1, 0, 0, 0⟩, "", ""⟩,
     ⟨"", "", "", some ⟨2002, 1, 1, 0, 0, 0⟩, "", ""⟩,
     ⟨"", "", "", some ⟨2001, 1, 1, 0, 0, 0⟩, "", ""⟩,
     ⟨"", "", "", some ⟨2000, 1, 1, 0, 0, 0⟩, "", ""⟩]).2.2.2.2.1
    ⟨"", "", "", some ⟨2000, 1, 1, 0, 0, 0⟩, "", ""⟩ (by decide)
    ⟨"", "", "", some ⟨2010, 1, 1, 0, 0, 0⟩, "", ""⟩ (by decide)

end Digest
